import Mathlib

/-
Verification development for the pixeltable store layer
(`src/pixeltable/store.py`).

The embedding models:
- the backing-table row shape (rowid columns, `v_min`, `v_max`, user columns);
- `StoreBase.delete_rows` together with the `_delete_rows_where_clause`
  implementations of `StoreTable`, `StoreView` and (by inheritance)
  `StoreComponentView`;
- the rowid-column construction of `StoreTable`, `StoreView` and
  `StoreComponentView` (`_create_rowid_columns`);
- `StoreBase.load_column`, `StoreBase._create_table_row` and
  `StoreBase.insert_rows` (the latter as an event-trace semantics so that
  resource release on the different exit paths can be stated).

External collaborators (the execution plan, the row builder, the SQL
connection, the progress reporter) are modelled as oracle inputs: a plan is
a list of steps, each yielding a batch of rows or raising; each row carries
the data the store reads from it (`pk`, the row-builder output, per-row
exception counts and exception column ids).
-/

set_option maxHeartbeats 1000000

namespace PixeltableStore

/-- Modelled from the spec: `schema.Table.MAX_VERSION` (the `pixeltable.metadata.schema`
module is not part of the sources); the spec fixes it as a large sentinel,
recommended `2^63 - 1`.  Its concrete value is irrelevant to the proofs below
except that deleted rows receive a `v_max` different from it. -/
def MAX_VERSION : Int := 2 ^ 63 - 1

/-- A cell value as stored in the backing relation: SQL NULL, an integer, or a
string (used for `errortype` / `errormsg`). -/
inductive CellVal
  | null
  | intV (n : Int)
  | strV (s : String)
  deriving DecidableEq, Repr

/-- One row of a backing relation: the rowid columns (one for a plain table;
copies of the base's rowid columns for a view, plus the positional column for
a component view), the system columns `v_min` / `v_max`, and the user
columns (kept opaque: the delete engine never reads them). -/
structure StoreRow where
  rowids : List Int
  v_min : Int
  v_max : Int
  userCols : List CellVal
  deriving DecidableEq, Repr

/-- Liveness predicate from `StoreTable._delete_rows_where_clause`
(store.py:287-292) and the spec's definition of live at version `V`:
`v_min <= V` and `v_max = MAX_VERSION`. -/
def liveAt (v : Int) (r : StoreRow) : Bool :=
  decide (r.v_min ≤ v) && decide (r.v_max = MAX_VERSION)

/-- Embedding of `StoreTable._delete_rows_where_clause` (store.py:287-292):
`sql.and_(v_min <= version, v_max == MAX_VERSION, where_clause)`. -/
def StoreTable.deleteWhereClause (version : Int) (whereClause : StoreRow → Bool)
    (r : StoreRow) : Bool :=
  decide (r.v_min ≤ version) && decide (r.v_max = MAX_VERSION) && whereClause r

/-- Embedding of the rowid join clauses of `StoreView._delete_rows_where_clause`
(store.py:311): `[c1 == c2 for c1, c2 in zip(self.rowid_columns(), self.base.rowid_columns())]`.
Python's `zip` truncates to the shorter list, which for a component view
excludes the trailing `pos` column from the join. -/
def rowidJoinClauses (r b : StoreRow) : Bool :=
  (List.zip r.rowids b.rowids).all fun p => decide (p.1 = p.2)

/-- Embedding of `StoreView._delete_rows_where_clause` (store.py:309-317),
inherited unchanged by `StoreComponentView`.  The clause references the base
relation's columns, so the SQL UPDATE is correlated: a view row matches iff
some base row satisfies the conjunction. -/
def StoreView.deleteWhereClause (baseRows : List StoreRow) (baseCurVersion : Int)
    (version : Int) (whereClause : StoreRow → Bool) (r : StoreRow) : Bool :=
  baseRows.any fun b =>
    rowidJoinClauses r b && decide (b.v_max = baseCurVersion)
      && decide (r.v_min ≤ version) && decide (r.v_max = MAX_VERSION)
      && whereClause r

/-- Embedding of `StoreBase.delete_rows` (store.py:259-272): default the
where-clause to TRUE, build the subclass where clause `pred`, then
`UPDATE ... SET v_max = tbl_version.version WHERE pred` and return the
rowcount. `curVersion` is `self.tbl_version.version`. -/
def StoreBase.delete_rows (pred : (StoreRow → Bool) → StoreRow → Bool)
    (curVersion : Int) (whereClause : Option (StoreRow → Bool))
    (rows : List StoreRow) : List StoreRow × Nat :=
  let w := whereClause.getD fun _ => true
  let p := pred w
  (rows.map fun r => if p r then { r with v_max := curVersion } else r,
   rows.countP p)

/-- Specialization of `delete_rows` to a plain table (`StoreTable`). -/
def StoreTable.delete_rows (curVersion : Int) (version : Int)
    (whereClause : Option (StoreRow → Bool)) (rows : List StoreRow) :
    List StoreRow × Nat :=
  StoreBase.delete_rows (StoreTable.deleteWhereClause version) curVersion
    whereClause rows

/-- Specialization of `delete_rows` to a view or component view
(`StoreView`, `StoreComponentView`). -/
def StoreView.delete_rows (baseRows : List StoreRow) (baseCurVersion : Int)
    (curVersion : Int) (version : Int) (whereClause : Option (StoreRow → Bool))
    (rows : List StoreRow) : List StoreRow × Nat :=
  StoreBase.delete_rows
    (StoreView.deleteWhereClause baseRows baseCurVersion version) curVersion
    whereClause rows

/-- The delete predicate of claim C2, written from the spec's words:
`v_min <= version AND v_max = MAX_VERSION AND where_clause`, the
where-clause defaulting to TRUE when absent. -/
def tableDeleteSpecPred (version : Int) (whereClause : Option (StoreRow → Bool))
    (r : StoreRow) : Bool :=
  decide (r.v_min ≤ version) && decide (r.v_max = MAX_VERSION)
    && (whereClause.getD fun _ => true) r

/-- The delete predicate of claim C1, written from the spec's words: some base
row whose rowid columns equal the view row's rowid columns (the first
`n` of them, excluding a component view's `pos` column) has
`v_max = base current version`, and the view row satisfies
`v_min <= version`, `v_max = MAX_VERSION` and the user where-clause. -/
def viewDeleteSpecPred (baseRows : List StoreRow) (baseCurVersion : Int)
    (n : Nat) (version : Int) (whereClause : Option (StoreRow → Bool))
    (r : StoreRow) : Bool :=
  (baseRows.any fun b =>
      decide (r.rowids.take n = b.rowids) && decide (b.v_max = baseCurVersion))
    && decide (r.v_min ≤ version) && decide (r.v_max = MAX_VERSION)
    && (whereClause.getD fun _ => true) r

/-- Rowid column names of `StoreTable._create_rowid_columns` (store.py:280-282):
a single column named `rowid`. -/
def StoreTable.rowidColumnNames : List String := ["rowid"]

/-- Rowid column names of `StoreView._create_rowid_columns` (store.py:301-304):
copies of the base's rowid columns. -/
def StoreView.rowidColumnNames (baseNames : List String) : List String :=
  baseNames

/-- Rowid column names of `StoreComponentView._create_rowid_columns`
(store.py:328-335): copies of the base's rowid columns followed by one
positional column named `pos_{len(rowid_cols) - 1}` where `rowid_cols` is
the list of base rowid copies. -/
def StoreComponentView.rowidColumnNames (baseNames : List String) : List String :=
  baseNames ++ ["pos_" ++ Nat.repr (baseNames.length - 1)]

/-- Rowid column names of a chain of `d` component views stacked over a plain
table. -/
def componentChainRowids : Nat → List String
  | 0 => StoreTable.rowidColumnNames
  | d + 1 => StoreComponentView.rowidColumnNames (componentChainRowids d)

/-- A slot of a result row produced by an execution plan: either an exception
(with its class name and stringified message, which is all `load_column`
reads from it) or a value. -/
inductive Slot
  | exc (ty msg : String)
  | val (v : CellVal)
  deriving DecidableEq, Repr

/-- A row produced by an execution plan for `load_column`: a primary-key tuple
and per-slot contents. -/
structure ResultRow where
  pk : List Int
  slots : List Slot
  deriving DecidableEq, Repr

/-- Embedding of `result_row.has_exc(i)`. -/
def ResultRow.has_exc (r : ResultRow) (i : Nat) : Bool :=
  match r.slots.getD i (.val .null) with
  | .exc _ _ => true
  | .val _ => false

/-- Class name of the exception in slot `i` (`type(value_exc).__name__`). -/
def ResultRow.excTypeName (r : ResultRow) (i : Nat) : String :=
  match r.slots.getD i (.val .null) with
  | .exc ty _ => ty
  | .val _ => ""

/-- Stringified exception in slot `i` (`str(value_exc)`). -/
def ResultRow.excMsg (r : ResultRow) (i : Nat) : String :=
  match r.slots.getD i (.val .null) with
  | .exc _ msg => msg
  | .val _ => ""

/-- Embedding of `result_row.get_stored_val(i)` (the value after the row's
storage normalization hook, which is external to the store). -/
def ResultRow.get_stored_val (r : ResultRow) (i : Nat) : CellVal :=
  match r.slots.getD i (.val .null) with
  | .exc _ _ => .null
  | .val v => v

/-- Embedding of `result_row[i]` (the raw slot value, used for embeddings). -/
def ResultRow.rawVal (r : ResultRow) (i : Nat) : CellVal :=
  match r.slots.getD i (.val .null) with
  | .exc _ _ => .null
  | .val v => v

/-- Storage column targeted by a `load_column` update: the value column
`col.sa_col`, the error columns, or the embedding index column. -/
inductive UpdCol
  | value
  | errortype
  | errormsg
  | index
  deriving DecidableEq, Repr

/-- An UPDATE statement issued by `load_column`: the values dictionary and the
WHERE equalities `pk_col == pk_val` produced by
`zip(self.pk_columns(), result_row.pk)` (store.py:209-211). -/
structure UpdateStmt where
  values : List (UpdCol × CellVal)
  whereEq : List (String × Int)
  deriving DecidableEq, Repr

/-- Processing of one result row by `StoreBase.load_column`
(store.py:183-213): build the values dictionary according to whether the
column is computed and whether the value slot carries an exception; for an
indexed column the assertion `not result_row.has_exc(embedding_slot_idx)`
must hold (modelled as `none` on violation) and the raw embedding is added;
finally the UPDATE targets the row by equality on all primary-key columns.
Returns the `num_excs` increment and the statement. -/
def loadColumnRow (isComputed isIndexed : Bool) (pkNames : List String)
    (valueSlot embSlot : Nat) (r : ResultRow) : Option (Nat × UpdateStmt) :=
  let (valuesDict, excInc) : List (UpdCol × CellVal) × Nat :=
    if isComputed then
      if r.has_exc valueSlot then
        ([(.value, .null), (.errortype, .strV (r.excTypeName valueSlot)),
          (.errormsg, .strV (r.excMsg valueSlot))], 1)
      else
        ([(.value, r.get_stored_val valueSlot)], 0)
    else ([], 0)
  if isIndexed then
    if r.has_exc embSlot then none
    else some (excInc,
      { values := valuesDict ++ [(.index, r.rawVal embSlot)],
        whereEq := List.zip pkNames r.pk })
  else some (excInc, { values := valuesDict, whereEq := List.zip pkNames r.pk })

/-- Sequential processing of a list of result rows by `load_column`,
accumulating the exception count and the issued statements in plan order. -/
def loadColumnRows (isComputed isIndexed : Bool) (pkNames : List String)
    (valueSlot embSlot : Nat) : List ResultRow → Option (Nat × List UpdateStmt)
  | [] => some (0, [])
  | r :: rest => do
      let (ne, stmt) ← loadColumnRow isComputed isIndexed pkNames valueSlot embSlot r
      let (n, stmts) ← loadColumnRows isComputed isIndexed pkNames valueSlot embSlot rest
      pure (ne + n, stmt :: stmts)

/-- Embedding of `StoreBase.load_column` (store.py:168-215).  The plan yields
batches of rows; the batch structure only feeds the (unreturned) row count,
so the rows are processed in flattened plan order.  Returns the number of
rows with exceptions and the UPDATE statements issued. -/
def StoreBase.load_column (isComputed isIndexed : Bool) (pkNames : List String)
    (valueSlot embSlot : Nat) (plan : List (List ResultRow)) :
    Option (Nat × List UpdateStmt) :=
  loadColumnRows isComputed isIndexed pkNames valueSlot embSlot plan.flatten

/-- A table-row dictionary as built for a bulk INSERT. -/
abbrev TableRowData := List (String × CellVal)

/-- Dictionary lookup in a table-row dictionary. -/
def assocGet (m : TableRowData) (k : String) : Option CellVal :=
  match m with
  | [] => none
  | (k', v) :: rest => if k' = k then some v else assocGet rest k

/-- Dictionary assignment `table_row[name] = value`: replace the binding if the
key is present, append it otherwise. -/
def assocSet (m : TableRowData) (k : String) (v : CellVal) : TableRowData :=
  match m with
  | [] => [(k, v)]
  | (k', v') :: rest =>
      if k' = k then (k, v) :: rest else (k', v') :: assocSet rest k v

/-- A row produced by an execution plan for `insert_rows`, carrying what the
store reads from it: the primary-key tuple `row.pk` and the output of
`row_builder.create_table_row(row, exc_col_ids)` — the built dictionary, the
per-row exception count, and the exception column ids the builder adds to
`exc_col_ids`.  The row builder itself is external to the store sources. -/
structure InputRow where
  pk : List Int
  builderRow : TableRowData
  builderNumExcs : Nat
  builderExcCols : Finset Nat
  deriving DecidableEq

/-- The primary-key write loop of `StoreBase._create_table_row`
(store.py:118-122): for each `(pk_col, pk_val)` in
`zip(self._pk_columns, input_row.pk)` assign `table_row[pk_col.name]`,
substituting the `v_min` override when the column is the `v_min` column
(the last of `_pk_columns`, here identified by its index `vminIdx`) and the
override is present. -/
def setPkCols (vminIdx : Nat) (vminOv : Option Int) :
    Nat → List String → List Int → TableRowData → TableRowData
  | _, [], _, m => m
  | _, _ :: _, [], m => m
  | i, name :: names, v :: vs, m =>
      let v' : Int :=
        match vminOv with
        | some o => if i = vminIdx then o else v
        | none => v
      setPkCols vminIdx vminOv (i + 1) names vs (assocSet m name (.intV v'))

/-- Embedding of `StoreBase._create_table_row` (store.py:107-123): take the
row-builder output and overwrite the primary-key slots from `row.pk` (with
the optional `v_min` override); return the completed row and the builder's
exception count. -/
def StoreBase.createTableRow (pkNames : List String) (vminOv : Option Int)
    (row : InputRow) : TableRowData × Nat :=
  (setPkCols (pkNames.length - 1) vminOv 0 pkNames row.pk row.builderRow,
   row.builderNumExcs)

/-- One step of an execution plan for `insert_rows`: yield a batch of rows, or
raise an exception during iteration. -/
inductive PlanStep
  | batch (rows : List InputRow)
  | planErr
  deriving DecidableEq

/-- Observable events of one `insert_rows` call, in order of occurrence:
plan open, lazy progress-bar creation and per-row ticks, each bulk INSERT
(successful or raising), a plan-iteration exception, progress-bar close and
plan close. -/
inductive InsEvent
  | planOpen
  | pbarCreate
  | pbarUpdate
  | sqlInsert (rows : List TableRowData)
  | sqlInsertErr (rows : List TableRowData)
  | planRaised
  | pbarClose
  | planClose
  deriving DecidableEq

/-- Running state of the `insert_rows` loop: the accumulators `num_rows`,
`num_excs` and `cols_with_excs`, whether the progress bar has been created,
the number of bulk INSERTs successfully issued, and the event trace so far. -/
structure InsState where
  numRows : Nat
  numExcs : Nat
  colsWithExcs : Finset Nat
  pbarCreated : Bool
  insertsDone : Nat
  events : List InsEvent
  deriving DecidableEq

/-- Per-row body of the insert loop (store.py:240-246): build the table row,
add the builder's exception count and exception columns, create the progress
bar if it does not exist yet, and tick it. -/
def processRow (pkNames : List String) (vminOv : Option Int) (st : InsState)
    (row : InputRow) : InsState × TableRowData :=
  let (tableRow, numRowExc) := StoreBase.createTableRow pkNames vminOv row
  let pbarEvents : List InsEvent :=
    if st.pbarCreated then [.pbarUpdate] else [.pbarCreate, .pbarUpdate]
  ({ st with
      numExcs := st.numExcs + numRowExc
      colsWithExcs := st.colsWithExcs ∪ row.builderExcCols
      pbarCreated := true
      events := st.events ++ pbarEvents }, tableRow)

/-- Build the `table_rows` list of one sub-batch (store.py:238-246). -/
def buildSubBatch (pkNames : List String) (vminOv : Option Int) (st : InsState) :
    List InputRow → InsState × List TableRowData
  | [] => (st, [])
  | row :: rest =>
      let (st1, tableRow) := processRow pkNames vminOv st row
      let (st2, tableRows) := buildSubBatch pkNames vminOv st1 rest
      (st2, tableRow :: tableRows)

/-- Process one sub-batch: build its table rows, then issue the bulk INSERT
(store.py:247).  `insertOk k` tells whether the `k`-th successful INSERT
round-trip succeeds; on failure the statement raises (second component
`true`). -/
def processSubBatch (pkNames : List String) (vminOv : Option Int)
    (insertOk : Nat → Bool) (st : InsState) (sub : List InputRow) :
    InsState × Bool :=
  let (st1, tableRows) := buildSubBatch pkNames vminOv st sub
  if insertOk st1.insertsDone then
    ({ st1 with
        events := st1.events ++ [.sqlInsert tableRows]
        insertsDone := st1.insertsDone + 1 }, false)
  else
    ({ st1 with events := st1.events ++ [.sqlInsertErr tableRows] }, true)

/-- Fuel-driven slicing of a batch into sub-batches of 16 rows.  The fuel is
an upper bound on the batch length and only serves to make the recursion
structural; each step takes the next 16 rows and continues with the rest. -/
def toSubBatchesFuel : Nat → List InputRow → List (List InputRow)
  | _, [] => []
  | 0, _ :: _ => []
  | fuel + 1, row :: rest =>
      ((row :: rest).take 16) :: toSubBatchesFuel fuel (rest.drop 15)

/-- Split a batch into sub-batches of 16 rows, mirroring
`range(0, len(row_batch), batch_size)` with `batch_size = 16`
(store.py:225,236-239). -/
def toSubBatches (l : List InputRow) : List (List InputRow) :=
  toSubBatchesFuel l.length l

/-- Process the sub-batches of one batch in order, stopping at the first
raising INSERT. -/
def processSubBatches (pkNames : List String) (vminOv : Option Int)
    (insertOk : Nat → Bool) (st : InsState) :
    List (List InputRow) → InsState × Bool
  | [] => (st, false)
  | sub :: rest =>
      match processSubBatch pkNames vminOv insertOk st sub with
      | (st1, false) => processSubBatches pkNames vminOv insertOk st1 rest
      | (st1, true) => (st1, true)

/-- The `for row_batch in exec_plan` loop (store.py:234-247): count the batch
into `num_rows`, process its sub-batches; a plan step that raises ends the
loop with an exception. -/
def runPlanLoop (pkNames : List String) (vminOv : Option Int)
    (insertOk : Nat → Bool) : List PlanStep → InsState → InsState × Bool
  | [], st => (st, false)
  | .planErr :: _, st => ({ st with events := st.events ++ [.planRaised] }, true)
  | .batch rows :: rest, st =>
      match
        processSubBatches pkNames vminOv insertOk
          { st with numRows := st.numRows + rows.length } (toSubBatches rows)
      with
      | (st1, false) => runPlanLoop pkNames vminOv insertOk rest st1
      | (st1, true) => (st1, true)

/-- Embedding of `StoreBase.insert_rows` (store.py:217-252) as a trace
semantics.  Inside `try`: `exec_plan.open()` (which may itself raise,
`openOk = false`), the batch loop, then — on the normal path only — the
progress bar is closed if it was created and the result triple is returned.
The `finally` block closes the plan exactly once on every exit path.
Returns the final state (whose `events` field is the complete trace) and
whether the call propagates an exception. -/
def insertRowsRun (pkNames : List String) (vminOv : Option Int) (openOk : Bool)
    (insertOk : Nat → Bool) (steps : List PlanStep) : InsState × Bool :=
  let p : InsState × Bool :=
    if openOk then
      runPlanLoop pkNames vminOv insertOk steps ⟨0, 0, ∅, false, 0, [.planOpen]⟩
    else (⟨0, 0, ∅, false, 0, [.planOpen]⟩, true)
  if p.2 then
    ({ p.1 with events := p.1.events ++ [.planClose] }, true)
  else
    ({ p.1 with
        events :=
          (if p.1.pbarCreated then p.1.events ++ [.pbarClose] else p.1.events)
            ++ [.planClose] }, false)

/-- Embedding of the observable result of `StoreBase.insert_rows`: the
returned triple `(num_rows, num_excs, cols_with_excs)` (or a propagated
exception) together with the event trace. -/
def StoreBase.insert_rows (pkNames : List String) (vminOv : Option Int)
    (openOk : Bool) (insertOk : Nat → Bool) (steps : List PlanStep) :
    Except Unit (Nat × Nat × Finset Nat) × List InsEvent :=
  let (st, raised) := insertRowsRun pkNames vminOv openOk insertOk steps
  (if raised then .error () else .ok (st.numRows, st.numExcs, st.colsWithExcs),
   st.events)

/-- The payloads of the successful bulk INSERT statements in a trace. -/
def insertPayloads (evs : List InsEvent) : List (List TableRowData) :=
  evs.filterMap fun e =>
    match e with
    | .sqlInsert rows => some rows
    | _ => none

/-- Number of occurrences of an event in a trace. -/
def countEvent (e : InsEvent) (evs : List InsEvent) : Nat :=
  evs.countP fun x => decide (x = e)

/-! Helper lemmas. -/

/-- Length of a chain of component views over a plain table: one `rowid`
column plus one `pos` column per level. -/
theorem componentChainRowids_length (d : Nat) :
    (componentChainRowids d).length = d + 1 := by
  induction d with
  | zero => rfl
  | succ d ih =>
      simp [componentChainRowids, StoreComponentView.rowidColumnNames, ih]

/-- The fuelled sub-batches concatenate back to the batch when the fuel
suffices. -/
theorem toSubBatchesFuel_flatten :
    ∀ (fuel : Nat) (l : List InputRow), l.length ≤ fuel →
      (toSubBatchesFuel fuel l).flatten = l := by
  intro fuel
  induction fuel with
  | zero =>
      intro l h
      cases l with
      | nil => rfl
      | cons row rest => simp at h
  | succ fuel ih =>
      intro l h
      cases l with
      | nil => rfl
      | cons row rest =>
          simp only [toSubBatchesFuel, List.flatten_cons]
          rw [ih (rest.drop 15) (by simp only [List.length_drop]; simp only [List.length_cons] at h; omega)]
          rw [show (16 : Nat) = 15 + 1 from rfl, List.take_succ_cons,
            List.cons_append, List.take_append_drop]

/-- The sub-batches of a batch concatenate back to the batch, in order. -/
theorem toSubBatches_flatten (l : List InputRow) :
    (toSubBatches l).flatten = l :=
  toSubBatchesFuel_flatten l.length l (Nat.le_refl _)

/-- Every fuelled sub-batch has at most 16 rows. -/
theorem toSubBatchesFuel_le :
    ∀ (fuel : Nat) (l : List InputRow), ∀ c ∈ toSubBatchesFuel fuel l,
      c.length ≤ 16 := by
  intro fuel
  induction fuel with
  | zero =>
      intro l c hc
      cases l <;> simp [toSubBatchesFuel] at hc
  | succ fuel ih =>
      intro l c hc
      cases l with
      | nil => simp [toSubBatchesFuel] at hc
      | cons row rest =>
          simp only [toSubBatchesFuel] at hc
          rcases List.mem_cons.mp hc with h | h
          · subst h
            exact List.length_take_le 16 (row :: rest)
          · exact ih (rest.drop 15) c h

/-- Every sub-batch has at most 16 rows. -/
theorem toSubBatches_le (l : List InputRow) :
    ∀ c ∈ toSubBatches l, c.length ≤ 16 :=
  toSubBatchesFuel_le l.length l

/-- The number of fuelled sub-batches of a batch of `n` rows is `⌈n / 16⌉`
when the fuel suffices. -/
theorem toSubBatchesFuel_length :
    ∀ (fuel : Nat) (l : List InputRow), l.length ≤ fuel →
      (toSubBatchesFuel fuel l).length = (l.length + 15) / 16 := by
  intro fuel
  induction fuel with
  | zero =>
      intro l h
      cases l with
      | nil => rfl
      | cons row rest => simp at h
  | succ fuel ih =>
      intro l h
      cases l with
      | nil => rfl
      | cons row rest =>
          simp only [toSubBatchesFuel, List.length_cons]
          rw [ih (rest.drop 15) (by simp only [List.length_drop]; simp only [List.length_cons] at h; omega)]
          simp only [List.length_drop]
          omega

/-- The number of sub-batches of a batch of `n` rows is `⌈n / 16⌉`. -/
theorem toSubBatches_length (l : List InputRow) :
    (toSubBatches l).length = (l.length + 15) / 16 :=
  toSubBatchesFuel_length l.length l (Nat.le_refl _)

/-- Lookup after assignment at the same key. -/
theorem assocGet_assocSet_self (m : TableRowData) (k : String) (v : CellVal) :
    assocGet (assocSet m k v) k = some v := by
  induction m with
  | nil => simp [assocSet, assocGet]
  | cons p rest ih =>
      by_cases h : p.1 = k
      · simp [assocSet, assocGet, h]
      · simp [assocSet, assocGet, h, ih]

/-- Lookup after assignment at a different key. -/
theorem assocGet_assocSet_ne (m : TableRowData) (k k' : String) (v : CellVal)
    (h : ¬k = k') : assocGet (assocSet m k v) k' = assocGet m k' := by
  induction m with
  | nil => simp [assocSet, assocGet, h]
  | cons p rest ih =>
      obtain ⟨pk, pv⟩ := p
      by_cases hp : pk = k
      · subst hp
        simp [assocSet, assocGet, h]
      · by_cases hp' : pk = k'
        · subst hp'
          simp [assocSet, assocGet, hp]
        · simp [assocSet, assocGet, hp, hp', ih]

/-- Keys not among the written pk column names are untouched by `setPkCols`. -/
theorem setPkCols_notMem (vminIdx : Nat) (vminOv : Option Int) :
    ∀ (names : List String) (i : Nat) (vs : List Int) (m : TableRowData)
      (name : String), name ∉ names →
      assocGet (setPkCols vminIdx vminOv i names vs m) name =
        assocGet m name := by
  intro names
  induction names with
  | nil => intro i vs m name _; rfl
  | cons n names ih =>
      intro i vs m name h
      cases vs with
      | nil => rfl
      | cons v vs =>
          simp only [setPkCols]
          rw [ih (i + 1) vs _ name (fun hm => h (List.mem_cons_of_mem n hm))]
          exact assocGet_assocSet_ne m n name _
            (fun he => h (he ▸ List.mem_cons_self n names))

/-- Value written by `setPkCols` at position `j` of the pk column list: the
`j`-th pk value, except the `v_min` override at the `v_min` index. -/
theorem setPkCols_getD (vminIdx : Nat) (vminOv : Option Int) :
    ∀ (names : List String) (i : Nat) (vs : List Int) (m : TableRowData)
      (j : Nat), names.Nodup → vs.length = names.length → j < names.length →
      assocGet (setPkCols vminIdx vminOv i names vs m) (names.getD j "") =
        some (.intV (match vminOv with
          | some o => if i + j = vminIdx then o else vs.getD j 0
          | none => vs.getD j 0)) := by
  intro names
  induction names with
  | nil => intro i vs m j _ _ hj; simp at hj
  | cons n names ih =>
      intro i vs m j hnd hlen hj
      cases vs with
      | nil => simp at hlen
      | cons v vs =>
          simp only [setPkCols]
          cases j with
          | zero =>
              simp only [List.getD_cons_zero, Nat.add_zero]
              rw [setPkCols_notMem vminIdx vminOv names (i + 1) vs _ n
                (List.Nodup.not_mem hnd)]
              exact assocGet_assocSet_self m n _
          | succ j =>
              simp only [List.getD_cons_succ]
              rw [ih (i + 1) vs _ j (List.Nodup.of_cons hnd)
                (by simpa using hlen) (by simpa using hj)]
              have hij : i + 1 + j = i + (j + 1) := by omega
              rw [hij]

/-- Emptiness of an appended list. -/
theorem isEmpty_append_eq {α : Type} (l1 l2 : List α) :
    (l1 ++ l2).isEmpty = (l1.isEmpty && l2.isEmpty) := by
  cases l1 <;> simp

/-- Splitting `insertPayloads` over appended traces. -/
theorem insertPayloads_append (l1 l2 : List InsEvent) :
    insertPayloads (l1 ++ l2) = insertPayloads l1 ++ insertPayloads l2 :=
  List.filterMap_append l1 l2 _

/-- Splitting `countEvent` over appended traces. -/
theorem countEvent_append (e : InsEvent) (l1 l2 : List InsEvent) :
    countEvent e (l1 ++ l2) = countEvent e l1 + countEvent e l2 :=
  List.countP_append _ l1 l2

/-- Event count of the empty trace. -/
theorem countEvent_nil (e : InsEvent) : countEvent e [] = 0 := rfl

/-- Event count of a trace cons. -/
theorem countEvent_cons (e x : InsEvent) (l : List InsEvent) :
    countEvent e (x :: l) = countEvent e l + if x = e then 1 else 0 := by
  simp [countEvent, List.countP_cons]

/-- Unfolding of `buildSubBatch` on a row cons. -/
theorem buildSubBatch_cons (pkNames : List String) (vminOv : Option Int)
    (st : InsState) (row : InputRow) (rest : List InputRow) :
    buildSubBatch pkNames vminOv st (row :: rest) =
      ((buildSubBatch pkNames vminOv (processRow pkNames vminOv st row).1
          rest).1,
       (processRow pkNames vminOv st row).2 ::
         (buildSubBatch pkNames vminOv (processRow pkNames vminOv st row).1
           rest).2) := rfl

/-- Effect of building one sub-batch of table rows: accumulators grow by the
sub-batch's builder outputs, the table rows are the per-row
`_create_table_row` results in order, no INSERT is issued, and no close
event is emitted. -/
theorem buildSubBatch_spec (pkNames : List String) (vminOv : Option Int) :
    ∀ (sub : List InputRow) (st : InsState),
      (buildSubBatch pkNames vminOv st sub).2 =
          sub.map (fun row => (StoreBase.createTableRow pkNames vminOv row).1)
        ∧ (buildSubBatch pkNames vminOv st sub).1.numRows = st.numRows
        ∧ (buildSubBatch pkNames vminOv st sub).1.numExcs =
            st.numExcs + (sub.map InputRow.builderNumExcs).sum
        ∧ (buildSubBatch pkNames vminOv st sub).1.colsWithExcs =
            sub.foldl (fun s r => s ∪ r.builderExcCols) st.colsWithExcs
        ∧ (buildSubBatch pkNames vminOv st sub).1.pbarCreated =
            (st.pbarCreated || !sub.isEmpty)
        ∧ (buildSubBatch pkNames vminOv st sub).1.insertsDone = st.insertsDone
        ∧ ∃ evs : List InsEvent,
            (buildSubBatch pkNames vminOv st sub).1.events = st.events ++ evs
              ∧ insertPayloads evs = []
              ∧ countEvent .planClose evs = 0
              ∧ countEvent .pbarClose evs = 0 := by
  intro sub
  induction sub with
  | nil =>
      intro st
      refine ⟨rfl, rfl, by simp [buildSubBatch], by simp [buildSubBatch],
        by simp [buildSubBatch], rfl, ⟨[], by simp [buildSubBatch], rfl, rfl, rfl⟩⟩
  | cons row rest ih =>
      intro st
      obtain ⟨h2, hnr, hne, hcols, hpb, hins, evs', hevs, hpay, hpc, hbc⟩ :=
        ih (processRow pkNames vminOv st row).1
      rw [buildSubBatch_cons]
      refine ⟨?_, ?_, ?_, ?_, ?_, ?_, ?_⟩
      · simp only [List.map_cons, h2]
        rfl
      · rw [hnr]; rfl
      · rw [hne]
        simp [processRow, StoreBase.createTableRow, Nat.add_assoc]
      · rw [hcols]
        rfl
      · rw [hpb]
        simp [processRow]
      · rw [hins]; rfl
      · refine ⟨(if st.pbarCreated then [.pbarUpdate]
            else [.pbarCreate, .pbarUpdate]) ++ evs', ?_, ?_, ?_, ?_⟩
        · rw [hevs]
          simp [processRow, List.append_assoc]
        · rw [insertPayloads_append, hpay]
          cases hpbc : st.pbarCreated <;> simp [insertPayloads]
        · rw [countEvent_append, hpc]
          cases hpbc : st.pbarCreated <;> simp [countEvent]
        · rw [countEvent_append, hbc]
          cases hpbc : st.pbarCreated <;> simp [countEvent]

/-- Unfolding of `processSubBatch` through the projections of the built
sub-batch. -/
theorem processSubBatch_eq (pkNames : List String) (vminOv : Option Int)
    (insertOk : Nat → Bool) (st : InsState) (sub : List InputRow) :
    processSubBatch pkNames vminOv insertOk st sub =
      if insertOk (buildSubBatch pkNames vminOv st sub).1.insertsDone then
        ({ (buildSubBatch pkNames vminOv st sub).1 with
            events := (buildSubBatch pkNames vminOv st sub).1.events ++
              [.sqlInsert (buildSubBatch pkNames vminOv st sub).2]
            insertsDone :=
              (buildSubBatch pkNames vminOv st sub).1.insertsDone + 1 }, false)
      else
        ({ (buildSubBatch pkNames vminOv st sub).1 with
            events := (buildSubBatch pkNames vminOv st sub).1.events ++
              [.sqlInsertErr (buildSubBatch pkNames vminOv st sub).2] },
         true) := rfl

/-- Effect of one successfully inserted sub-batch on the loop state. -/
theorem processSubBatch_ok (pkNames : List String) (vminOv : Option Int)
    (insertOk : Nat → Bool) (hIns : ∀ k, insertOk k = true) (st : InsState)
    (sub : List InputRow) :
    (processSubBatch pkNames vminOv insertOk st sub).2 = false
      ∧ (processSubBatch pkNames vminOv insertOk st sub).1.numRows = st.numRows
      ∧ (processSubBatch pkNames vminOv insertOk st sub).1.numExcs =
          st.numExcs + (sub.map InputRow.builderNumExcs).sum
      ∧ (processSubBatch pkNames vminOv insertOk st sub).1.colsWithExcs =
          sub.foldl (fun s r => s ∪ r.builderExcCols) st.colsWithExcs
      ∧ (processSubBatch pkNames vminOv insertOk st sub).1.pbarCreated =
          (st.pbarCreated || !sub.isEmpty)
      ∧ (processSubBatch pkNames vminOv insertOk st sub).1.insertsDone =
          st.insertsDone + 1
      ∧ ∃ evs : List InsEvent,
          (processSubBatch pkNames vminOv insertOk st sub).1.events =
              st.events ++ evs
            ∧ insertPayloads evs =
                [sub.map fun row => (StoreBase.createTableRow pkNames vminOv row).1]
            ∧ countEvent .planClose evs = 0
            ∧ countEvent .pbarClose evs = 0 := by
  obtain ⟨h2, hnr, hne, hcols, hpb, hins, evs', hevs, hpay, hpc, hbc⟩ :=
    buildSubBatch_spec pkNames vminOv sub st
  rw [processSubBatch_eq, hIns _, if_pos rfl]
  refine ⟨rfl, hnr, hne, hcols, hpb, by rw [hins], ?_⟩
  refine ⟨evs' ++ [.sqlInsert (buildSubBatch pkNames vminOv st sub).2],
    ?_, ?_, ?_, ?_⟩
  · show (buildSubBatch pkNames vminOv st sub).1.events ++ _ = _
    rw [hevs, List.append_assoc]
  · rw [insertPayloads_append, hpay, h2]
    simp [insertPayloads]
  · rw [countEvent_append, hpc]
    simp [countEvent]
  · rw [countEvent_append, hbc]
    simp [countEvent]

/-- A sub-batch insert, successful or raising, emits no close events. -/
theorem processSubBatch_events (pkNames : List String) (vminOv : Option Int)
    (insertOk : Nat → Bool) (st : InsState) (sub : List InputRow) :
    ∃ evs : List InsEvent,
      (processSubBatch pkNames vminOv insertOk st sub).1.events =
          st.events ++ evs
        ∧ countEvent .planClose evs = 0
        ∧ countEvent .pbarClose evs = 0 := by
  obtain ⟨h2, hnr, hne, hcols, hpb, hins, evs', hevs, hpay, hpc, hbc⟩ :=
    buildSubBatch_spec pkNames vminOv sub st
  rw [processSubBatch_eq]
  by_cases h : insertOk (buildSubBatch pkNames vminOv st sub).1.insertsDone = true
  · rw [if_pos h]
    refine ⟨evs' ++ [.sqlInsert (buildSubBatch pkNames vminOv st sub).2],
      ?_, ?_, ?_⟩
    · show (buildSubBatch pkNames vminOv st sub).1.events ++ _ = _
      rw [hevs, List.append_assoc]
    · rw [countEvent_append, hpc]
      simp [countEvent]
    · rw [countEvent_append, hbc]
      simp [countEvent]
  · rw [if_neg h]
    refine ⟨evs' ++ [.sqlInsertErr (buildSubBatch pkNames vminOv st sub).2],
      ?_, ?_, ?_⟩
    · show (buildSubBatch pkNames vminOv st sub).1.events ++ _ = _
      rw [hevs, List.append_assoc]
    · rw [countEvent_append, hpc]
      simp [countEvent]
    · rw [countEvent_append, hbc]
      simp [countEvent]

/-- Unfolding of `processSubBatches` on a sub-batch cons. -/
theorem processSubBatches_cons (pkNames : List String) (vminOv : Option Int)
    (insertOk : Nat → Bool) (st : InsState) (sub : List InputRow)
    (rest : List (List InputRow)) :
    processSubBatches pkNames vminOv insertOk st (sub :: rest) =
      match processSubBatch pkNames vminOv insertOk st sub with
      | (st1, false) => processSubBatches pkNames vminOv insertOk st1 rest
      | (st1, true) => (st1, true) := rfl

/-- Effect of processing a list of sub-batches when every INSERT succeeds. -/
theorem processSubBatches_ok (pkNames : List String) (vminOv : Option Int)
    (insertOk : Nat → Bool) (hIns : ∀ k, insertOk k = true) :
    ∀ (subs : List (List InputRow)) (st : InsState),
      (processSubBatches pkNames vminOv insertOk st subs).2 = false
        ∧ (processSubBatches pkNames vminOv insertOk st subs).1.numRows =
            st.numRows
        ∧ (processSubBatches pkNames vminOv insertOk st subs).1.numExcs =
            st.numExcs + (subs.flatten.map InputRow.builderNumExcs).sum
        ∧ (processSubBatches pkNames vminOv insertOk st subs).1.colsWithExcs =
            subs.flatten.foldl (fun s r => s ∪ r.builderExcCols) st.colsWithExcs
        ∧ (processSubBatches pkNames vminOv insertOk st subs).1.pbarCreated =
            (st.pbarCreated || !subs.flatten.isEmpty)
        ∧ ∃ evs : List InsEvent,
            (processSubBatches pkNames vminOv insertOk st subs).1.events =
                st.events ++ evs
              ∧ insertPayloads evs =
                  subs.map (fun sub =>
                    sub.map fun row =>
                      (StoreBase.createTableRow pkNames vminOv row).1)
              ∧ countEvent .planClose evs = 0
              ∧ countEvent .pbarClose evs = 0 := by
  intro subs
  induction subs with
  | nil =>
      intro st
      exact ⟨rfl, rfl, by simp [processSubBatches],
        by simp [processSubBatches], by simp [processSubBatches],
        ⟨[], by simp [processSubBatches], rfl, rfl, rfl⟩⟩
  | cons sub rest ih =>
      intro st
      obtain ⟨hflag, hnr, hne, hcols, hpb, hins, evs1, hevs1, hpay1, hpc1, hbc1⟩ :=
        processSubBatch_ok pkNames vminOv insertOk hIns st sub
      rw [processSubBatches_cons]
      rcases hspb : processSubBatch pkNames vminOv insertOk st sub with ⟨st1, flag⟩
      rw [hspb] at hflag hnr hne hcols hpb hins hevs1
      subst hflag
      obtain ⟨hflag2, hnr2, hne2, hcols2, hpb2, evs2, hevs2, hpay2, hpc2, hbc2⟩ :=
        ih st1
      refine ⟨hflag2, ?_, ?_, ?_, ?_, ?_⟩
      · rw [hnr2, hnr]
      · rw [hne2, hne]
        simp [Nat.add_assoc]
      · rw [hcols2, hcols]
        simp [List.foldl_append]
      · rw [hpb2, hpb]
        simp [isEmpty_append_eq, Bool.or_assoc]
      · refine ⟨evs1 ++ evs2, ?_, ?_, ?_, ?_⟩
        · rw [hevs2, hevs1, List.append_assoc]
        · rw [insertPayloads_append, hpay1, hpay2]
          simp
        · rw [countEvent_append, hpc1, hpc2]
        · rw [countEvent_append, hbc1, hbc2]

/-- Processing sub-batches emits no close events, whatever the INSERT
outcomes. -/
theorem processSubBatches_events (pkNames : List String) (vminOv : Option Int)
    (insertOk : Nat → Bool) :
    ∀ (subs : List (List InputRow)) (st : InsState),
      ∃ evs : List InsEvent,
        (processSubBatches pkNames vminOv insertOk st subs).1.events =
            st.events ++ evs
          ∧ countEvent .planClose evs = 0
          ∧ countEvent .pbarClose evs = 0 := by
  intro subs
  induction subs with
  | nil => intro st; exact ⟨[], by simp [processSubBatches], rfl, rfl⟩
  | cons sub rest ih =>
      intro st
      obtain ⟨evs1, hevs1, hpc1, hbc1⟩ :=
        processSubBatch_events pkNames vminOv insertOk st sub
      rw [processSubBatches_cons]
      rcases hspb : processSubBatch pkNames vminOv insertOk st sub with ⟨st1, flag⟩
      rw [hspb] at hevs1
      cases flag with
      | true => exact ⟨evs1, hevs1, hpc1, hbc1⟩
      | false =>
          obtain ⟨evs2, hevs2, hpc2, hbc2⟩ := ih st1
          refine ⟨evs1 ++ evs2, ?_, ?_, ?_⟩
          · rw [hevs2, hevs1, List.append_assoc]
          · rw [countEvent_append, hpc1, hpc2]
          · rw [countEvent_append, hbc1, hbc2]

/-- Unfolding of `runPlanLoop` on a successful batch step. -/
theorem runPlanLoop_cons_batch (pkNames : List String) (vminOv : Option Int)
    (insertOk : Nat → Bool) (rows : List InputRow) (rest : List PlanStep)
    (st : InsState) :
    runPlanLoop pkNames vminOv insertOk (.batch rows :: rest) st =
      match
        processSubBatches pkNames vminOv insertOk
          { st with numRows := st.numRows + rows.length } (toSubBatches rows)
      with
      | (st1, false) => runPlanLoop pkNames vminOv insertOk rest st1
      | (st1, true) => (st1, true) := rfl

/-- Effect of the batch loop on a plan that yields `batches` and never raises,
when every INSERT succeeds: the loop completes normally, accumulating the
row count, exception count and exception columns of all rows, and its trace
contains one INSERT payload per sub-batch of each batch, in order, and no
close event. -/
theorem runPlanLoop_ok (pkNames : List String) (vminOv : Option Int)
    (insertOk : Nat → Bool) (hIns : ∀ k, insertOk k = true) :
    ∀ (batches : List (List InputRow)) (st : InsState),
      (runPlanLoop pkNames vminOv insertOk (batches.map PlanStep.batch) st).2 =
          false
        ∧ (runPlanLoop pkNames vminOv insertOk (batches.map PlanStep.batch)
            st).1.numRows = st.numRows + (batches.map List.length).sum
        ∧ (runPlanLoop pkNames vminOv insertOk (batches.map PlanStep.batch)
            st).1.numExcs =
            st.numExcs + (batches.flatten.map InputRow.builderNumExcs).sum
        ∧ (runPlanLoop pkNames vminOv insertOk (batches.map PlanStep.batch)
            st).1.colsWithExcs =
            batches.flatten.foldl (fun s r => s ∪ r.builderExcCols)
              st.colsWithExcs
        ∧ (runPlanLoop pkNames vminOv insertOk (batches.map PlanStep.batch)
            st).1.pbarCreated = (st.pbarCreated || !batches.flatten.isEmpty)
        ∧ ∃ evs : List InsEvent,
            (runPlanLoop pkNames vminOv insertOk (batches.map PlanStep.batch)
                st).1.events = st.events ++ evs
              ∧ insertPayloads evs =
                  batches.flatMap (fun b =>
                    (toSubBatches b).map fun sub =>
                      sub.map fun row =>
                        (StoreBase.createTableRow pkNames vminOv row).1)
              ∧ countEvent .planClose evs = 0
              ∧ countEvent .pbarClose evs = 0 := by
  intro batches
  induction batches with
  | nil =>
      intro st
      exact ⟨rfl, by simp [runPlanLoop], by simp [runPlanLoop],
        by simp [runPlanLoop], by simp [runPlanLoop],
        ⟨[], by simp [runPlanLoop], rfl, rfl, rfl⟩⟩
  | cons b rest ih =>
      intro st
      obtain ⟨hflag, hnr, hne, hcols, hpb, evs1, hevs1, hpay1, hpc1, hbc1⟩ :=
        processSubBatches_ok pkNames vminOv insertOk hIns (toSubBatches b)
          { st with numRows := st.numRows + b.length }
      rw [List.map_cons, runPlanLoop_cons_batch]
      rcases hspb : processSubBatches pkNames vminOv insertOk
          { st with numRows := st.numRows + b.length } (toSubBatches b)
        with ⟨st1, flag⟩
      rw [hspb] at hflag hnr hne hcols hpb hevs1
      subst hflag
      obtain ⟨hflag2, hnr2, hne2, hcols2, hpb2, evs2, hevs2, hpay2, hpc2, hbc2⟩ :=
        ih st1
      rw [toSubBatches_flatten] at hne hcols hpb
      refine ⟨hflag2, ?_, ?_, ?_, ?_, ?_⟩
      · rw [hnr2, hnr]
        simp [Nat.add_assoc]
      · rw [hne2, hne]
        simp [Nat.add_assoc]
      · rw [hcols2, hcols]
        simp [List.foldl_append]
      · rw [hpb2, hpb]
        simp [isEmpty_append_eq, Bool.or_assoc]
      · refine ⟨evs1 ++ evs2, ?_, ?_, ?_, ?_⟩
        · rw [hevs2, hevs1, List.append_assoc]
        · rw [insertPayloads_append, hpay1, hpay2]
          simp
        · rw [countEvent_append, hpc1, hpc2]
        · rw [countEvent_append, hbc1, hbc2]

/-- The batch loop emits no close events, whatever the plan steps and INSERT
outcomes. -/
theorem runPlanLoop_events (pkNames : List String) (vminOv : Option Int)
    (insertOk : Nat → Bool) :
    ∀ (steps : List PlanStep) (st : InsState),
      ∃ evs : List InsEvent,
        (runPlanLoop pkNames vminOv insertOk steps st).1.events =
            st.events ++ evs
          ∧ countEvent .planClose evs = 0
          ∧ countEvent .pbarClose evs = 0 := by
  intro steps
  induction steps with
  | nil => intro st; exact ⟨[], by simp [runPlanLoop], rfl, rfl⟩
  | cons step rest ih =>
      intro st
      cases step with
      | planErr =>
          refine ⟨[.planRaised], ?_, rfl, rfl⟩
          simp [runPlanLoop]
      | batch rows =>
          obtain ⟨evs1, hevs1, hpc1, hbc1⟩ :=
            processSubBatches_events pkNames vminOv insertOk (toSubBatches rows)
              { st with numRows := st.numRows + rows.length }
          rw [runPlanLoop_cons_batch]
          rcases hspb : processSubBatches pkNames vminOv insertOk
              { st with numRows := st.numRows + rows.length }
              (toSubBatches rows)
            with ⟨st1, flag⟩
          rw [hspb] at hevs1
          cases flag with
          | true => exact ⟨evs1, hevs1, hpc1, hbc1⟩
          | false =>
              obtain ⟨evs2, hevs2, hpc2, hbc2⟩ := ih st1
              refine ⟨evs1 ++ evs2, ?_, ?_, ?_⟩
              · rw [hevs2, hevs1, List.append_assoc]
              · rw [countEvent_append, hpc1, hpc2]
              · rw [countEvent_append, hbc1, hbc2]

/-- Membership in the accumulated exception-column set. -/
theorem mem_foldl_union (c : Nat) :
    ∀ (rows : List InputRow) (init : Finset Nat),
      (c ∈ rows.foldl (fun s r => s ∪ r.builderExcCols) init) ↔
        c ∈ init ∨ ∃ r ∈ rows, c ∈ r.builderExcCols := by
  intro rows
  induction rows with
  | nil => intro init; simp
  | cons r rows ih =>
      intro init
      rw [List.foldl_cons, ih]
      simp only [Finset.mem_union, List.mem_cons]
      constructor
      · rintro (⟨h | h⟩ | ⟨r', hr', hc⟩)
        · exact Or.inl h
        · exact Or.inr ⟨r, Or.inl rfl, h⟩
        · exact Or.inr ⟨r', Or.inr hr', hc⟩
      · rintro (h | ⟨r', hr' | hr', hc⟩)
        · exact Or.inl (Or.inl h)
        · exact Or.inl (Or.inr (hr' ▸ hc))
        · exact Or.inr ⟨r', hr', hc⟩

/-- Pairwise equality of zipped lists is equality with a prefix: when `ys` is
no longer than `xs`, all zipped pairs agree iff the first `ys.length`
elements of `xs` are exactly `ys`. -/
theorem zipAll_eq_iff_take {xs ys : List Int} (h : ys.length ≤ xs.length) :
    ((List.zip xs ys).all fun p => decide (p.1 = p.2)) = true ↔
      xs.take ys.length = ys := by
  induction ys generalizing xs with
  | nil => simp
  | cons y ys ih =>
      cases xs with
      | nil => simp at h
      | cons x xs =>
          simp only [List.zip_cons_cons, List.all_cons, Bool.and_eq_true,
            decide_eq_true_eq, List.length_cons, List.take_succ_cons,
            List.cons.injEq]
          rw [ih (by simpa using h)]

/-- The rowid join of the view where-clause compares exactly the base's rowid
columns: with base rows of rowid width `n` and view rows of width at least
`n` (equal for a view, `n + 1` for a component view, whose `pos` column is
truncated away by `zip`), the join holds iff the first `n` rowids agree. -/
theorem rowidJoinClauses_iff_take {r b : StoreRow} {n : Nat}
    (hbn : b.rowids.length = n) (hrn : n ≤ r.rowids.length) :
    rowidJoinClauses r b = true ↔ r.rowids.take n = b.rowids := by
  unfold rowidJoinClauses
  subst hbn
  exact zipAll_eq_iff_take hrn

/-- Pointwise agreement of the embedded `StoreView._delete_rows_where_clause`
with the claim's predicate, for rows of the right rowid widths. -/
theorem viewClause_eq_spec (baseRows : List StoreRow)
    (baseCurVersion version : Int) (whereClause : Option (StoreRow → Bool))
    (n : Nat) (hb : ∀ b ∈ baseRows, b.rowids.length = n) (r : StoreRow)
    (hrn : n ≤ r.rowids.length) :
    StoreView.deleteWhereClause baseRows baseCurVersion version
        (whereClause.getD fun _ => true) r
      = viewDeleteSpecPred baseRows baseCurVersion n version whereClause r := by
  rw [Bool.eq_iff_iff]
  unfold StoreView.deleteWhereClause viewDeleteSpecPred
  simp only [List.any_eq_true, Bool.and_eq_true, decide_eq_true_eq]
  constructor
  · rintro ⟨b, hbm, hrest⟩
    obtain ⟨⟨⟨⟨hj, hvb⟩, hvmin⟩, hvmax⟩, hw⟩ := hrest
    exact ⟨⟨⟨⟨b, hbm, (rowidJoinClauses_iff_take (hb b hbm) hrn).mp hj, hvb⟩,
      hvmin⟩, hvmax⟩, hw⟩
  · rintro ⟨⟨⟨⟨b, hbm, hj, hvb⟩, hvmin⟩, hvmax⟩, hw⟩
    exact ⟨b, hbm, ⟨⟨⟨(rowidJoinClauses_iff_take (hb b hbm) hrn).mpr hj, hvb⟩,
      hvmin⟩, hvmax⟩, hw⟩

/-- Closed form of `loadColumnRows` for a computed, non-indexed column: it
never fails, returns the number of rows whose value slot carries an
exception, and issues one UPDATE per row in order — the error-record write
on exception rows, the value-only write otherwise, each targeting the row by
`zip(pk_columns, pk)`. -/
theorem loadColumnRows_computed (pkNames : List String) (valueSlot embSlot : Nat)
    (rows : List ResultRow) :
    loadColumnRows true false pkNames valueSlot embSlot rows =
      some (rows.countP (fun r => r.has_exc valueSlot),
        rows.map fun r =>
          { values :=
              if r.has_exc valueSlot then
                [(UpdCol.value, CellVal.null),
                 (UpdCol.errortype, CellVal.strV (r.excTypeName valueSlot)),
                 (UpdCol.errormsg, CellVal.strV (r.excMsg valueSlot))]
              else [(UpdCol.value, r.get_stored_val valueSlot)],
            whereEq := List.zip pkNames r.pk }) := by
  induction rows with
  | nil => rfl
  | cons r rest ih =>
      by_cases h : r.has_exc valueSlot = true
      · simp [loadColumnRows, loadColumnRow, ih, h, List.countP_cons,
          Nat.add_comm]
      · simp [loadColumnRows, loadColumnRow, ih, h, List.countP_cons]

/-! Claim theorems. -/

/-- C2: for a plain table, `delete_rows(version, where_clause, conn)` sets
`v_max` to the table's current `tbl_version.version` (the `curVersion`
argument, not the `version` argument) on exactly the rows satisfying
`v_min <= version AND v_max = MAX_VERSION AND where_clause` (the
where-clause defaulting to TRUE when absent), returns the number of rows so
updated, and modifies no other column of any row. -/
theorem C2_table_delete_rows_spec (curVersion version : Int)
    (whereClause : Option (StoreRow → Bool)) (rows : List StoreRow) :
    (StoreTable.delete_rows curVersion version whereClause rows).1 =
        rows.map (fun r =>
          if tableDeleteSpecPred version whereClause r
          then { r with v_max := curVersion } else r)
      ∧ (StoreTable.delete_rows curVersion version whereClause rows).2 =
        rows.countP (tableDeleteSpecPred version whereClause)
      ∧ ∀ r : StoreRow,
          ({ r with v_max := curVersion } : StoreRow).rowids = r.rowids
            ∧ ({ r with v_max := curVersion } : StoreRow).v_min = r.v_min
            ∧ ({ r with v_max := curVersion } : StoreRow).userCols = r.userCols :=
  ⟨rfl, rfl, fun _ => ⟨rfl, rfl, rfl⟩⟩

/-- C1: for a view (and identically for a component view, whose trailing `pos`
column is excluded from the join by the `zip` truncation), `delete_rows`
updates exactly the rows for which some base row with equal rowid columns
has `v_max` equal to the base table's current version, while the view row
satisfies `v_min <= version`, `v_max = MAX_VERSION` and the user
where-clause; every updated row gets `v_max` set to the view's current
`tbl_version.version` (`curVersion`), and the rowcount counts those rows. -/
theorem C1_view_delete_rows_spec (baseRows rows : List StoreRow)
    (baseCurVersion curVersion version : Int)
    (whereClause : Option (StoreRow → Bool)) (n : Nat)
    (hb : (baseRows.all fun b => b.rowids.length == n) = true)
    (hr : (rows.all fun r => decide (n ≤ r.rowids.length)) = true) :
    (StoreView.delete_rows baseRows baseCurVersion curVersion version
        whereClause rows).1 =
        rows.map (fun r =>
          if viewDeleteSpecPred baseRows baseCurVersion n version whereClause r
          then { r with v_max := curVersion } else r)
      ∧ (StoreView.delete_rows baseRows baseCurVersion curVersion version
          whereClause rows).2 =
        rows.countP
          (viewDeleteSpecPred baseRows baseCurVersion n version whereClause) := by
  have hb' : ∀ b ∈ baseRows, b.rowids.length = n := by
    simpa using hb
  have hr' : ∀ r ∈ rows, n ≤ r.rowids.length := by
    simpa using hr
  have hpt : ∀ r ∈ rows,
      StoreView.deleteWhereClause baseRows baseCurVersion version
          (whereClause.getD fun _ => true) r
        = viewDeleteSpecPred baseRows baseCurVersion n version whereClause r :=
    fun r hrm =>
      viewClause_eq_spec baseRows baseCurVersion version whereClause n hb' r
        (hr' r hrm)
  constructor
  · simp only [StoreView.delete_rows, StoreBase.delete_rows]
    exact List.map_congr_left fun r hrm => by rw [hpt r hrm]
  · simp only [StoreView.delete_rows, StoreBase.delete_rows]
    exact List.countP_congr fun r hrm => by rw [hpt r hrm]

/-- C1, witness: the view-delete characterization applied to a concrete
component view (rowid width 2 = base rowid plus `pos`) over a base with
rowid width 1, where base row 7 was deleted at the base's current version
5: exactly the two component rows of base row 7 get `v_max` set to the
view's current version 3. -/
theorem C1_view_delete_rows_spec_witness :
    (([⟨[7], 0, 5, []⟩, ⟨[8], 0, MAX_VERSION, []⟩] :
        List StoreRow).all fun b => b.rowids.length == 1) = true
      ∧ (([⟨[7, 0], 0, MAX_VERSION, []⟩, ⟨[7, 1], 0, MAX_VERSION, []⟩,
            ⟨[8, 0], 0, MAX_VERSION, []⟩] :
          List StoreRow).all fun r => decide (1 ≤ r.rowids.length)) = true
      ∧ (StoreView.delete_rows [⟨[7], 0, 5, []⟩, ⟨[8], 0, MAX_VERSION, []⟩] 5 3 0
          none
          [⟨[7, 0], 0, MAX_VERSION, []⟩, ⟨[7, 1], 0, MAX_VERSION, []⟩,
           ⟨[8, 0], 0, MAX_VERSION, []⟩]).1 =
        [⟨[7, 0], 0, MAX_VERSION, []⟩, ⟨[7, 1], 0, MAX_VERSION, []⟩,
         ⟨[8, 0], 0, MAX_VERSION, []⟩].map (fun r =>
          if viewDeleteSpecPred [⟨[7], 0, 5, []⟩, ⟨[8], 0, MAX_VERSION, []⟩] 5 1 0
              none r
          then { r with v_max := 3 } else r) :=
  ⟨by decide, by decide,
   (C1_view_delete_rows_spec [⟨[7], 0, 5, []⟩, ⟨[8], 0, MAX_VERSION, []⟩]
     [⟨[7, 0], 0, MAX_VERSION, []⟩, ⟨[7, 1], 0, MAX_VERSION, []⟩,
      ⟨[8, 0], 0, MAX_VERSION, []⟩] 5 3 0 none 1 (by decide) (by decide)).1⟩

/-- C5 counterexample: the claim's downward monotonicity fails.  A row created
at version 2 (`v_min = 2`, `v_max = MAX_VERSION`) is live at version 2 but
not at the earlier version 1, although `1 <= 2`. -/
theorem C5_counterexample :
    (1 : Int) ≤ 2
      ∧ liveAt 2 ⟨[0], 2, MAX_VERSION, []⟩ = true
      ∧ liveAt 1 ⟨[0], 2, MAX_VERSION, []⟩ = false := by
  refine ⟨by norm_num, ?_, ?_⟩ <;> simp [liveAt, MAX_VERSION]

/-- C5 amended: liveness is monotone upward, not downward — for all versions
`v1 <= v2`, a row live at `v1` is live at `v2` (a row visible at an earlier
version stays visible at later versions unless deleted). -/
theorem C5_amended_live_monotone (r : StoreRow) (v1 v2 : Int) (h12 : v1 ≤ v2)
    (h : liveAt v1 r = true) : liveAt v2 r = true := by
  simp only [liveAt, Bool.and_eq_true, decide_eq_true_eq] at h ⊢
  exact ⟨le_trans h.1 h12, h.2⟩

/-- C5 amended, witness: the amended monotonicity applied at a concrete row
and versions. -/
theorem C5_amended_live_monotone_witness :
    (0 : Int) ≤ 1
      ∧ liveAt 0 ⟨[0], 0, MAX_VERSION, []⟩ = true
      ∧ liveAt 1 ⟨[0], 0, MAX_VERSION, []⟩ = true :=
  ⟨by norm_num, by simp [liveAt],
   C5_amended_live_monotone ⟨[0], 0, MAX_VERSION, []⟩ 0 1 (by norm_num)
     (by simp [liveAt])⟩

/-- C6: delete idempotence for a plain table — when the table's current
version is distinct from `MAX_VERSION`, a second `delete_rows` call with the
same arguments on the state produced by the first returns a rowcount of
`0`. -/
theorem C6_delete_rows_idempotent (curVersion version : Int)
    (whereClause : Option (StoreRow → Bool)) (rows : List StoreRow)
    (h : ¬curVersion = MAX_VERSION) :
    (StoreTable.delete_rows curVersion version whereClause
        (StoreTable.delete_rows curVersion version whereClause rows).1).2 = 0 := by
  simp only [StoreTable.delete_rows, StoreBase.delete_rows]
  rw [List.countP_eq_zero]
  intro r' hr'
  simp only [List.mem_map] at hr'
  obtain ⟨r, _, rfl⟩ := hr'
  by_cases hp :
      StoreTable.deleteWhereClause version (whereClause.getD fun _ => true) r = true
  · rw [if_pos hp]
    simp [StoreTable.deleteWhereClause, h]
  · rw [if_neg hp]
    exact hp

/-- C6, witness: the idempotence theorem applied to a concrete table state
with current version 1 and a deleted-at-version-0 query. -/
theorem C6_delete_rows_idempotent_witness :
    ¬(1 : Int) = MAX_VERSION
      ∧ (StoreTable.delete_rows 1 0 none
          (StoreTable.delete_rows 1 0 none
            [⟨[7], 0, MAX_VERSION, []⟩, ⟨[8], 0, MAX_VERSION, []⟩]).1).2 = 0 :=
  ⟨by decide,
   C6_delete_rows_idempotent 1 0 none
     [⟨[7], 0, MAX_VERSION, []⟩, ⟨[8], 0, MAX_VERSION, []⟩] (by decide)⟩

/-- C3: for a computed column, `load_column` issues exactly one UPDATE per row
produced by the plan, in plan order: on an exception in the value slot it
writes `(value ← null, errortype ← class name, errormsg ← stringified
message)` and counts the row into `num_excs`; otherwise it writes only the
stored value, leaving the error columns untouched.  Each UPDATE addresses
its target row by equality on all primary-key columns (when the row's pk
tuple has the width of `pk_columns`, the zip pairs every one of them), and
the returned `num_excs` is the number of rows whose value slot carried an
exception. -/
theorem C3_load_column_spec (pkNames : List String) (valueSlot embSlot : Nat)
    (plan : List (List ResultRow))
    (hpk : (plan.all fun b => b.all fun r => r.pk.length == pkNames.length)
      = true) :
    StoreBase.load_column true false pkNames valueSlot embSlot plan =
        some (plan.flatten.countP (fun r => r.has_exc valueSlot),
          plan.flatten.map fun r =>
            { values :=
                if r.has_exc valueSlot then
                  [(UpdCol.value, CellVal.null),
                   (UpdCol.errortype, CellVal.strV (r.excTypeName valueSlot)),
                   (UpdCol.errormsg, CellVal.strV (r.excMsg valueSlot))]
                else [(UpdCol.value, r.get_stored_val valueSlot)],
              whereEq := List.zip pkNames r.pk })
      ∧ ∀ r ∈ plan.flatten,
          (List.zip pkNames r.pk).length = pkNames.length := by
  constructor
  · exact loadColumnRows_computed pkNames valueSlot embSlot plan.flatten
  · have hpk' : ∀ b ∈ plan, ∀ r ∈ b, r.pk.length = pkNames.length := by
      simpa using hpk
    intro r hr
    rw [List.mem_flatten] at hr
    obtain ⟨b, hbm, hrb⟩ := hr
    rw [List.length_zip, hpk' b hbm r hrb, Nat.min_self]

/-- C3, witness: the `load_column` characterization applied to a concrete plan
with one value row and one exception row. -/
theorem C3_load_column_spec_witness :
    (([[⟨[7, 0], [.val (.intV 42)]⟩, ⟨[8, 0], [.exc "ValueError" "bad"]⟩]] :
        List (List ResultRow)).all fun b =>
          b.all fun r => r.pk.length == (["rowid", "v_min"] : List String).length)
      = true
      ∧ StoreBase.load_column true false ["rowid", "v_min"] 0 0
          [[⟨[7, 0], [.val (.intV 42)]⟩, ⟨[8, 0], [.exc "ValueError" "bad"]⟩]] =
        some (([[⟨[7, 0], [.val (.intV 42)]⟩,
              ⟨[8, 0], [.exc "ValueError" "bad"]⟩]] :
            List (List ResultRow)).flatten.countP (fun r => r.has_exc 0),
          ([[⟨[7, 0], [.val (.intV 42)]⟩,
              ⟨[8, 0], [.exc "ValueError" "bad"]⟩]] :
            List (List ResultRow)).flatten.map fun r =>
            { values :=
                if r.has_exc 0 then
                  [(UpdCol.value, CellVal.null),
                   (UpdCol.errortype, CellVal.strV (r.excTypeName 0)),
                   (UpdCol.errormsg, CellVal.strV (r.excMsg 0))]
                else [(UpdCol.value, r.get_stored_val 0)],
              whereEq := List.zip ["rowid", "v_min"] r.pk }) :=
  ⟨by decide,
   (C3_load_column_spec ["rowid", "v_min"] 0 0
     [[⟨[7, 0], [.val (.intV 42)]⟩, ⟨[8, 0], [.exc "ValueError" "bad"]⟩]]
     (by decide)).1⟩

/-- C4 counterexample: for a component view built directly over a plain table
the positional column created by `_create_rowid_columns` is named `pos_0`
(the code uses `len(base rowid copies) - 1 = 0`), not `pos_1` as the claim's
depth-based naming requires. -/
theorem C4_counterexample :
    StoreComponentView.rowidColumnNames StoreTable.rowidColumnNames =
        ["rowid", "pos_0"]
      ∧ ("pos_0" : String) ≠ "pos_1" := by
  exact ⟨rfl, by decide⟩

/-- C4 amended: the positional column appended by a component view is named
`pos_<k>` where `k` is the number of the base's rowid columns minus one —
one less than the view's depth for a chain of component views over a plain
table.  For a component view directly over a plain table the columns are
`(rowid, pos_0)`, so a base row with rowid 7 expanding into two children is
stored as `(rowid=7, pos_0=0)` and `(rowid=7, pos_0=1)`; stacking component
views appends `pos_0, pos_1, pos_2, …`, so the names never collide. -/
theorem C4_amended_pos_column_names :
    (∀ baseNames : List String,
        StoreComponentView.rowidColumnNames baseNames =
          baseNames ++ ["pos_" ++ Nat.repr (baseNames.length - 1)])
      ∧ (∀ d : Nat,
          componentChainRowids (d + 1) =
            componentChainRowids d ++ ["pos_" ++ Nat.repr d])
      ∧ componentChainRowids 1 = ["rowid", "pos_0"]
      ∧ List.zip (componentChainRowids 1) [(7 : Int), 0] =
          [("rowid", (7 : Int)), ("pos_0", 0)]
      ∧ List.zip (componentChainRowids 1) [(7 : Int), 1] =
          [("rowid", (7 : Int)), ("pos_0", 1)]
      ∧ componentChainRowids 2 = ["rowid", "pos_0", "pos_1"]
      ∧ (componentChainRowids 2).Nodup
      ∧ (componentChainRowids 3).Nodup := by
  refine ⟨fun baseNames => rfl, fun d => ?_, by decide, by decide, by decide,
    by decide, by decide, by decide⟩
  simp [componentChainRowids, StoreComponentView.rowidColumnNames,
    componentChainRowids_length]

/-- C7: on a run in which the plan opens, yields `batches` without raising and
every bulk INSERT succeeds, `insert_rows` processes every batch in
sub-batches of 16 rows (the sub-batches partition each batch in order, each
has at most 16 rows, and their number is `⌈batch/16⌉`), issues exactly one
bulk INSERT per sub-batch (the trace's INSERT payloads are exactly the
per-batch sub-batches, converted row by row), and returns the triple of
total rows consumed, total per-row exceptions summed over all rows, and the
set of column ids that recorded at least one exception during the call. -/
theorem C7_insert_rows_spec (pkNames : List String) (vminOv : Option Int)
    (batches : List (List InputRow)) :
    (StoreBase.insert_rows pkNames vminOv true (fun _ => true)
        (batches.map PlanStep.batch)).1 =
        Except.ok ((batches.map List.length).sum,
          (batches.flatten.map InputRow.builderNumExcs).sum,
          batches.flatten.foldl (fun s r => s ∪ r.builderExcCols) ∅)
      ∧ insertPayloads (StoreBase.insert_rows pkNames vminOv true
          (fun _ => true) (batches.map PlanStep.batch)).2 =
        batches.flatMap (fun b =>
          (toSubBatches b).map fun sub =>
            sub.map fun row => (StoreBase.createTableRow pkNames vminOv row).1)
      ∧ (∀ b : List InputRow, (toSubBatches b).flatten = b)
      ∧ (∀ b : List InputRow, ∀ sub ∈ toSubBatches b, sub.length ≤ 16)
      ∧ (∀ b : List InputRow, (toSubBatches b).length = (b.length + 15) / 16)
      ∧ (∀ c : Nat,
          c ∈ batches.flatten.foldl (fun s r => s ∪ r.builderExcCols) ∅ ↔
            ∃ r ∈ batches.flatten, c ∈ r.builderExcCols) := by
  obtain ⟨hflag, hnr, hne, hcols, hpb, evs, hevs, hpay, hpc, hbc⟩ :=
    runPlanLoop_ok pkNames vminOv (fun _ => true) (fun _ => rfl) batches
      ⟨0, 0, ∅, false, 0, [.planOpen]⟩
  rcases hrun : runPlanLoop pkNames vminOv (fun _ => true)
      (batches.map PlanStep.batch) ⟨0, 0, ∅, false, 0, [.planOpen]⟩
    with ⟨stL, raised⟩
  rw [hrun] at hflag hnr hne hcols hpb hevs
  subst hflag
  have hnr' : stL.numRows = (batches.map List.length).sum := by simpa using hnr
  have hne' : stL.numExcs = (batches.flatten.map InputRow.builderNumExcs).sum := by
    simpa using hne
  have hcols' : stL.colsWithExcs =
      batches.flatten.foldl (fun s r => s ∪ r.builderExcCols) ∅ := by
    simpa using hcols
  have hevs' : stL.events = .planOpen :: evs := by simpa using hevs
  have hrw : StoreBase.insert_rows pkNames vminOv true (fun _ => true)
      (batches.map PlanStep.batch) =
      (Except.ok (stL.numRows, stL.numExcs, stL.colsWithExcs),
       (if stL.pbarCreated then stL.events ++ [.pbarClose] else stL.events) ++
         [.planClose]) := by
    simp [StoreBase.insert_rows, insertRowsRun, hrun]
  refine ⟨?_, ?_, toSubBatches_flatten, toSubBatches_le, toSubBatches_length,
    ?_⟩
  · rw [hrw]
    show Except.ok (stL.numRows, stL.numExcs, stL.colsWithExcs) = _
    rw [hnr', hne', hcols']
  · rw [hrw]
    show insertPayloads
        ((if stL.pbarCreated then stL.events ++ [.pbarClose] else stL.events) ++
          [.planClose]) = _
    have hpayfin : insertPayloads
        ((if stL.pbarCreated then stL.events ++ [.pbarClose] else stL.events) ++
          [.planClose]) = insertPayloads stL.events := by
      cases stL.pbarCreated <;>
        simp [insertPayloads_append, insertPayloads]
    rw [hpayfin, hevs']
    simpa [insertPayloads, List.filterMap_cons] using hpay
  · intro c
    rw [mem_foldl_union]
    simp

/-- C9: on every exit path of `insert_rows` — normal completion, a failing
`exec_plan.open()`, an exception raised by the plan during iteration, or an
error raised by a bulk INSERT — the `finally` block closes the execution
plan exactly once: every trace contains exactly one plan-close event. -/
theorem C9_insert_rows_plan_closed_once (pkNames : List String)
    (vminOv : Option Int) (openOk : Bool) (insertOk : Nat → Bool)
    (steps : List PlanStep) :
    countEvent .planClose
      (insertRowsRun pkNames vminOv openOk insertOk steps).1.events = 1 := by
  obtain ⟨evs, hevs, hpc, hbc⟩ :=
    runPlanLoop_events pkNames vminOv insertOk steps
      ⟨0, 0, ∅, false, 0, [.planOpen]⟩
  rcases hrun : runPlanLoop pkNames vminOv insertOk steps
      ⟨0, 0, ∅, false, 0, [.planOpen]⟩ with ⟨stL, raised⟩
  rw [hrun] at hevs
  have hevs' : stL.events = .planOpen :: evs := by simpa using hevs
  cases openOk with
  | false =>
      simp [insertRowsRun, countEvent]
  | true =>
      cases raised with
      | true =>
          have hfin : (insertRowsRun pkNames vminOv true insertOk
              steps).1.events = stL.events ++ [.planClose] := by
            simp [insertRowsRun, hrun]
          rw [hfin, countEvent_append, hevs']
          have : countEvent .planClose (InsEvent.planOpen :: evs) = 0 := by
            simpa [countEvent] using hpc
          rw [this]
          rfl
      | false =>
          have hfin : (insertRowsRun pkNames vminOv true insertOk
              steps).1.events =
              (if stL.pbarCreated then stL.events ++ [.pbarClose]
               else stL.events) ++ [.planClose] := by
            simp [insertRowsRun, hrun]
          rw [hfin, countEvent_append]
          have h0 : countEvent .planClose stL.events = 0 := by
            rw [hevs']
            simpa [countEvent] using hpc
          cases hp : stL.pbarCreated
          · rw [if_neg (by simp [hp]), h0]
            rfl
          · rw [if_pos (by simp [hp]), countEvent_append, h0]
            rfl

/-- C10 counterexample: a run in which the plan yields one row (creating the
progress reporter) and then raises — the call propagates the exception and
the trace contains no progress-bar close event, so the reporter is not
released on this exit path. -/
theorem C10_counterexample :
    countEvent .pbarCreate
        (insertRowsRun ["rowid", "v_min"] none true (fun _ => true)
          [.batch [⟨[1, 0], [], 0, ∅⟩], .planErr]).1.events = 1
      ∧ (insertRowsRun ["rowid", "v_min"] none true (fun _ => true)
          [.batch [⟨[1, 0], [], 0, ∅⟩], .planErr]).2 = true
      ∧ countEvent .pbarClose
        (insertRowsRun ["rowid", "v_min"] none true (fun _ => true)
          [.batch [⟨[1, 0], [], 0, ∅⟩], .planErr]).1.events = 0 := by
  refine ⟨?_, ?_, ?_⟩ <;> rfl

/-- C10 amended: the progress reporter created lazily on the first row is
closed exactly once on the normal exit path, but on the error exit paths
(plan open failure, plan iteration error, bulk INSERT error) it is not
closed — the trace contains a progress-bar close event iff the call returns
normally and the reporter was created. -/
theorem C10_amended_pbar_close (pkNames : List String) (vminOv : Option Int)
    (openOk : Bool) (insertOk : Nat → Bool) (steps : List PlanStep) :
    countEvent .pbarClose
        (insertRowsRun pkNames vminOv openOk insertOk steps).1.events =
      if (insertRowsRun pkNames vminOv openOk insertOk steps).2 = false
          ∧ (insertRowsRun pkNames vminOv openOk insertOk
              steps).1.pbarCreated = true
      then 1 else 0 := by
  obtain ⟨evs, hevs, hpc, hbc⟩ :=
    runPlanLoop_events pkNames vminOv insertOk steps
      ⟨0, 0, ∅, false, 0, [.planOpen]⟩
  rcases hrun : runPlanLoop pkNames vminOv insertOk steps
      ⟨0, 0, ∅, false, 0, [.planOpen]⟩ with ⟨stL, raised⟩
  rw [hrun] at hevs
  have hevs' : stL.events = .planOpen :: evs := by simpa using hevs
  have h0 : countEvent .pbarClose stL.events = 0 := by
    rw [hevs']
    simpa [countEvent] using hbc
  cases openOk with
  | false =>
      simp [insertRowsRun, countEvent]
  | true =>
      cases raised with
      | true =>
          have hrw : insertRowsRun pkNames vminOv true insertOk steps =
              ({ stL with events := stL.events ++ [.planClose] }, true) := by
            simp [insertRowsRun, hrun]
          rw [hrw]
          show countEvent .pbarClose (stL.events ++ [.planClose]) = _
          rw [countEvent_append, h0]
          simp [countEvent]
      | false =>
          have hrw : insertRowsRun pkNames vminOv true insertOk steps =
              ({ stL with events :=
                  (if stL.pbarCreated then stL.events ++ [.pbarClose]
                   else stL.events) ++ [.planClose] }, false) := by
            simp [insertRowsRun, hrun]
          rw [hrw]
          show countEvent .pbarClose
              ((if stL.pbarCreated then stL.events ++ [.pbarClose]
                else stL.events) ++ [.planClose]) =
            if false = false ∧ stL.pbarCreated = true then 1 else 0
          cases hp : stL.pbarCreated
          · simp [hp, countEvent_append, countEvent_cons, countEvent_nil, h0]
          · simp [hp, countEvent_append, countEvent_cons, countEvent_nil, h0]

/-- C8: in the table row built by `_create_table_row`, every rowid slot
receives the corresponding value of `row.pk`; the `v_min` slot receives the
`v_min` override when one is passed and the corresponding `row.pk` value
otherwise; and slots whose name is not a primary-key column name keep the
value produced by the row builder. -/
theorem C8_create_table_row_pk (pkNames : List String) (vminOv : Option Int)
    (row : InputRow) (hlen : row.pk.length = pkNames.length)
    (hnd : pkNames.Nodup) :
    (∀ i : Nat, i < pkNames.length - 1 →
        assocGet (StoreBase.createTableRow pkNames vminOv row).1
            (pkNames.getD i "") =
          some (.intV (row.pk.getD i 0)))
      ∧ (pkNames.length ≠ 0 →
          assocGet (StoreBase.createTableRow pkNames vminOv row).1
              (pkNames.getD (pkNames.length - 1) "") =
            some (.intV (match vminOv with
              | some o => o
              | none => row.pk.getD (pkNames.length - 1) 0)))
      ∧ ∀ name : String, name ∉ pkNames →
          assocGet (StoreBase.createTableRow pkNames vminOv row).1 name =
            assocGet row.builderRow name := by
  refine ⟨?_, ?_, ?_⟩
  · intro i hi
    simp only [StoreBase.createTableRow]
    rw [setPkCols_getD (pkNames.length - 1) vminOv pkNames 0 row.pk
      row.builderRow i hnd hlen (by omega)]
    cases vminOv with
    | none => rfl
    | some o =>
        have hcond : ¬(i = pkNames.length - 1) := by omega
        simp [hcond]
  · intro hne
    simp only [StoreBase.createTableRow]
    rw [setPkCols_getD (pkNames.length - 1) vminOv pkNames 0 row.pk
      row.builderRow (pkNames.length - 1) hnd hlen (by omega)]
    cases vminOv with
    | none => rfl
    | some o =>
        have hcond : 0 + (pkNames.length - 1) = pkNames.length - 1 := by omega
        simp [hcond]
  · intro name hname
    simp only [StoreBase.createTableRow]
    exact setPkCols_notMem (pkNames.length - 1) vminOv pkNames 0 row.pk
      row.builderRow name hname

/-- C8, witness: the pk-population theorem applied to a concrete row with pk
`(7, 3)`, a `v_min` override of 5 and one builder slot `a = 1`. -/
theorem C8_create_table_row_pk_witness :
    (⟨[7, 3], [("a", .intV 1)], 0, ∅⟩ : InputRow).pk.length =
        (["rowid", "v_min"] : List String).length
      ∧ (["rowid", "v_min"] : List String).Nodup
      ∧ assocGet (StoreBase.createTableRow ["rowid", "v_min"] (some 5)
          ⟨[7, 3], [("a", .intV 1)], 0, ∅⟩).1 "rowid" = some (.intV 7)
      ∧ assocGet (StoreBase.createTableRow ["rowid", "v_min"] (some 5)
          ⟨[7, 3], [("a", .intV 1)], 0, ∅⟩).1 "v_min" = some (.intV 5)
      ∧ assocGet (StoreBase.createTableRow ["rowid", "v_min"] (some 5)
          ⟨[7, 3], [("a", .intV 1)], 0, ∅⟩).1 "a" = some (.intV 1) := by
  have h := C8_create_table_row_pk ["rowid", "v_min"] (some 5)
    ⟨[7, 3], [("a", .intV 1)], 0, ∅⟩ (by decide) (by decide)
  refine ⟨by decide, by decide, ?_, ?_, ?_⟩
  · exact h.1 0 (by norm_num)
  · exact h.2.1 (by norm_num)
  · exact h.2.2 "a" (by decide)

end PixeltableStore
